import Mathlib

/-
Verification of the CrawlingCluster core against its specification.

The Python source is shallowly embedded as executable Lean definitions:

* `parsing/util/search.py`:
    - `recursive_dfs`  — fueled state-passing embedding `dfsListF` of the
      recursive traversal with its mutable `discovered` list.
    - `iterative_bfs`  — the while loop over (accumulator, visited, queue)
      becomes the well-founded recursion `bfsLoop`.
    - `AsyncRequestAcquisitionHTML.async_request_status` — the network is an
      oracle `net : String → Except NetErr Nat`; an uncaught aiohttp
      exception is an `Except.error` escaping the function.
    - `AsyncWebCrawler` — one worker loop iteration of `crawl` becomes the
      step function `crawlStep`; the page fetch and the BeautifulSoup href
      extraction are an oracle `pages : String → Option (List String)`, and
      the external helper `url_addition` an oracle parameter.
* `parsing/asnyc_protocol.py`:
    - `url_classifier`       — the module-level deques become explicit state.
    - `aiorequest_injection` — embedded faithfully, including the call to the
      nonexistent attribute `ARAH.asnyc_request`, which raises an
      `AttributeError` in the source.

Dictionaries are association lists, sets are duplicate-free lists built by
insert-if-absent, and Python exceptions are `Except` errors.
-/

namespace CrawlingCluster

/-- Embedding of Python `graph.get(n, default)` on a dict represented as an
association list. -/
def lookupD {α : Type} (g : List (Nat × α)) (n : Nat) (d : α) : α :=
  match g with
  | [] => d
  | (k, v) :: rest => if k = n then v else lookupD rest n d

/-! ## `iterative_bfs` (search.py lines 33–47)

Loop state: `acc` is the Python `start` deque of collected bundles,
`visited` the `visited` set, `queue` the work deque.  One `bfsLoop`
unfolding is one iteration of the `while queue:` loop: pop `node` from the
left; if `graph.get(node, [])` is truthy append it to `acc`, and then, if
`node` is not yet visited, mark it visited and push it back on the queue. -/
def bfsLoop {α : Type} (graph : List (Nat × List α)) (acc : List (List α))
    (visited : List Nat) (queue : List Nat) : List (List α) :=
  match queue with
  | [] => acc
  | node :: rest =>
    let bundle := lookupD graph node []
    if bundle.isEmpty then
      bfsLoop graph acc visited rest
    else if node ∈ visited then
      bfsLoop graph (acc ++ [bundle]) visited rest
    else
      bfsLoop graph (acc ++ [bundle]) (visited ++ [node]) (rest ++ [node])
termination_by queue.length + 2 * queue.countP (fun x => decide (x ∉ visited))
decreasing_by
  · simp only [List.length_cons, List.countP_cons]
    omega
  · simp only [List.length_cons, List.countP_cons]
    omega
  · rename_i _hne hnv
    have h1 : List.countP (fun x => decide (x ∉ visited ++ [node])) rest ≤
        List.countP (fun x => decide (x ∉ visited)) rest := by
      apply List.countP_mono_left
      intro a _ ha
      simp only [decide_eq_true_eq, List.mem_append, List.mem_singleton] at ha ⊢
      exact fun h => ha (Or.inl h)
    have h4 : (decide (node ∉ visited ++ [node])) = false := by simp
    have h5 : (decide (node ∉ visited)) = true := by simp [hnv]
    simp only [List.length_cons, List.length_append, List.countP_cons, List.countP_append,
      List.countP_nil, List.length_nil, h4, h5, if_true, if_false, Bool.false_eq_true]
    omega

/-- Embedding of `iterative_bfs(start_v, graph)`: `start = deque()`,
`visited = {start_v}`, `queue = deque([start_v])`, then the loop. -/
def iterative_bfs {α : Type} (start_v : Nat) (graph : List (Nat × List α)) :
    List (List α) :=
  bfsLoop graph [] [start_v] [start_v]

/-- The `iterative_bfs(num, element).pop()` composite used by
`deep_dive_search` (search.py line 68): `deque.pop()` removes and returns the
rightmost element, raising `IndexError` (here `none`) on an empty deque. -/
def breadthFirstBundle {α : Type} (start_v : Nat)
    (graph : List (Nat × List α)) : Option (List α) :=
  (iterative_bfs start_v graph).getLast?

/-- Edge relation the spec's graph reading induces on an adjacency list:
`b` is a child of `a` when it occurs in `a`'s adjacency entry. -/
def graphEdge (g : List (Nat × List Nat)) (a b : Nat) : Prop :=
  b ∈ lookupD g a []

/-- Reachability: reflexive-transitive closure of `graphEdge`. -/
def reachGraph (g : List (Nat × List Nat)) : Nat → Nat → Prop :=
  Relation.ReflTransGen (graphEdge g)

/-- Two-node graph with a node 2 reachable from node 1, both holding a
non-empty payload — the instantiation on which claim C1 is refuted. -/
def bfsDemoGraph : List (Nat × List Nat) := [(1, [2]), (2, [3])]

/-! ## `recursive_dfs` (search.py lines 18–29)

The Python function mutates one shared `discovered` list: append the node,
then for each child not yet discovered recurse.  `dfsListF g f l disc` is
the state-passing embedding of the `for n in graph.get(node, [])` loop over
the remaining children `l` with the current `discovered` list `disc`; an
undiscovered child `n` is processed by recursing into its own child loop
with `disc ++ [n]` (the body of `recursive_dfs(n, graph, discovered)`).
`f` bounds the recursion depth; `none` means the fuel ran out, and
`dfs_fuel_sufficient` below shows the fuel chosen by `recursive_dfsO`
never does. -/
def dfsListF (g : List (Nat × List Nat)) :
    Nat → List Nat → List Nat → Option (List Nat)
  | _, [], disc => some disc
  | f, n :: rest, disc =>
    if n ∈ disc then dfsListF g f rest disc
    else
      match f with
      | 0 => none
      | f' + 1 =>
        match dfsListF g f' (lookupD g n []) (disc ++ [n]) with
        | none => none
        | some d => dfsListF g (f' + 1) rest d
termination_by f l _ => (f, l.length)

/-- Every node id mentioned by the graph: its keys and all child entries. -/
def nodesOf (g : List (Nat × List Nat)) : List Nat :=
  g.map Prod.fst ++ (g.map Prod.snd).flatten

/-- Number of graph nodes not yet on the discovered list — the quantity the
fuel-sufficiency argument for `dfsListF` descends on. -/
def remaining (g : List (Nat × List Nat)) (disc : List Nat) : Nat :=
  ((nodesOf g).toFinset.filter (fun x => x ∉ disc)).card

/-- Embedding of `recursive_dfs(node, graph)` with default `discovered=None`:
`discovered = [node]`, then the child loop over `graph.get(node, [])`.  The
fuel `|nodesOf g| + 1` dominates the recursion depth. -/
def recursive_dfsO (node : Nat) (graph : List (Nat × List Nat)) :
    Option (List Nat) :=
  dfsListF graph ((nodesOf graph).toFinset.card + 1) (lookupD graph node [])
    [node]

/-- The discovered list `recursive_dfs` returns (total form). -/
def recursive_dfs (node : Nat) (graph : List (Nat × List Nat)) : List Nat :=
  (recursive_dfsO node graph).getD []

/-! ## Fetcher (`AsyncRequestAcquisitionHTML`, search.py lines 75–170) -/

/-- Network-level (transport) failures: the aiohttp exceptions that a
request can raise before any HTTP status exists. -/
inductive NetErr where
  | timeout
  | dnsFailure
  | connReset
deriving DecidableEq

/-- The value `async_request` produces from a response: the URL itself on
status 200 (`Success`), the `{"status": code}` record otherwise. -/
inductive FetchResult where
  | success (url : String)
  | failure (status : Nat)
deriving DecidableEq

/-- Embedding of `async_request` (search.py lines 106–121): classify the
response status. -/
def async_request (url : String) (status : Nat) : FetchResult :=
  match status with
  | 200 => .success url
  | s => .failure s

/-- Embedding of `async_request_status(url)` (search.py lines 136–147) with
the network as an oracle `net : url ↦ Except transport-error status-code`.
`session.get` raising is `net url = .error e`; the function body has no
`try/except`, so the error leaves the function: it is the `Except.error` of
the returned value, never converted into a `FetchResult`. -/
def async_request_status (net : String → Except NetErr Nat) (url : String) :
    Except NetErr FetchResult :=
  match net url with
  | .error e => .error e
  | .ok status => .ok (async_request url status)

/-! ## `url_classifier` and `aiorequest_injection` (asnyc_protocol.py) -/

/-- Runtime shape of one element of the `results` list that
`url_classifier` inspects with `isinstance`: a plain string, a dict (the
failure record), a Python int, or an exception object captured by
`asyncio.gather(..., return_exceptions=True)`. -/
inductive PyVal where
  | str (s : String)
  | dict (d : List (String × Nat))
  | int (n : Nat)
  | exc (e : NetErr)
deriving DecidableEq

/-- Embedding of `url_classifier(result)` (asnyc_protocol.py lines 22–30).
The module-level `ready_queue` and `not_request_queue` deques are made
explicit state `qs`; strings are appended to the first, dicts to the
second, anything else is printed and dropped. -/
def url_classifier (qs : List String × List (List (String × Nat)))
    (result : List PyVal) : List String × List (List (String × Nat)) :=
  result.foldl
    (fun q url =>
      match url with
      | .str s => (q.1 ++ [s], q.2)
      | .dict d => (q.1, q.2 ++ [d])
      | _ => q)
    qs

/-- The string a `url_classifier` input item contributes to the ready
queue, if any. -/
def readyOf : PyVal → Option String
  | .str s => some s
  | _ => none

/-- The failure record a `url_classifier` input item contributes to the
not-ready queue, if any. -/
def notReadyOf : PyVal → Option (List (String × Nat))
  | .dict d => some d
  | _ => none

/-- The conversion `asyncio.gather(*tasks, return_exceptions=True)` applies
to each task outcome: a raised exception becomes an item of the result list
instead of propagating. -/
def gatherRE (tasks : List (Except NetErr FetchResult)) : List PyVal :=
  tasks.map
    (fun r =>
      match r with
      | .ok (.success u) => .str u
      | .ok (.failure s) => .dict [("status", s)]
      | .error e => .exc e)

/-- Python exceptions that `aiorequest_injection` itself can raise. -/
inductive PyErr where
  | attributeError
  | valueError
deriving DecidableEq

/-- Embedding of `aiorequest_injection(start, batch_size)` (asnyc_protocol.py
lines 33–53) as it stands in the source: `start.pop()` takes the most
recently appended bundle; an empty bundle is skipped; for a non-empty bundle
`range(0, len(node), batch_size)` raises `ValueError` when the step is 0,
and otherwise the first loop iteration evaluates `ARAH.asnyc_request`, an
attribute `AsyncRequestAcquisitionHTML` does not define (the actual method
is `async_request_status`), raising `AttributeError`. -/
def aiorequest_injection : List (List String) → Nat → Except PyErr Unit
  | [], _ => .ok ()
  | start@(_ :: _), batch_size =>
    let node := start.getLast?.getD []
    if node.length > 0 then
      if batch_size = 0 then .error .valueError else .error .attributeError
    else aiorequest_injection start.dropLast batch_size
termination_by start _ => start.length
decreasing_by
  rename_i hd tl h
  show start.dropLast.length < (hd :: tl).length
  rw [h]
  simp only [List.length_dropLast, List.length_cons]
  omega

/-- The list of slices `node[count : count + batch_size]` for
`count in range(0, len(node), batch_size)` — the batches the source's inner
loop walks through. -/
def batches (node : List String) (batch_size : Nat) : List (List String) :=
  (List.range' 0 ((node.length + batch_size - 1) / batch_size) batch_size).map
    (fun count => (node.drop count).take batch_size)

/-- Recursive characterization of `batches` for a positive batch size
(internally `bs + 1`): peel off the first `bs + 1` URLs, recurse on the
rest. -/
def chunks (bs : Nat) : List String → List (List String)
  | [] => []
  | node@(_ :: _) => node.take (bs + 1) :: chunks bs (node.drop (bs + 1))
termination_by node => node.length
decreasing_by
  rename_i hd tl h
  show (node.drop (bs + 1)).length < (hd :: tl).length
  rw [h]
  simp only [List.length_drop, List.length_cons]
  omega

/-- The dispatch loop of `aiorequest_injection` with the misspelled
`asnyc_request` replaced by the intended `async_request_status` (spec §4.3:
the BatchDispatcher issues `fetchStatus` per URL).  Recorded here is the
trace of batches in processing order: bundles are popped from the right of
the starting queue, each non-empty bundle contributes its `batches`. -/
def dispatchBatches : List (List String) → Nat → List (List String)
  | [], _ => []
  | start@(_ :: _), batch_size =>
    let node := start.getLast?.getD []
    (if node.length > 0 then batches node batch_size else []) ++
      dispatchBatches start.dropLast batch_size
termination_by start _ => start.length
decreasing_by
  rename_i hd tl h
  show start.dropLast.length < (hd :: tl).length
  rw [h]
  simp only [List.length_dropLast, List.length_cons]
  omega

/-! ## `AsyncWebCrawler` (search.py lines 173–217) -/

/-- Embedding of `parse_links(content, base_url)` (search.py lines 183–192).
The BeautifulSoup iteration `soup.find_all("a", href=True)` is abstracted to
the extracted `href` list; `url_addition` lives outside this repository and
is the oracle `uadd`.  A link starting with `"/"` is resolved against the
base URL first; only links then starting with `"http"` enter the set, here
an insertion-ordered duplicate-free list. -/
def parse_links (uadd : String → String → String) (hrefs : List String)
    (base_url : String) : List String :=
  hrefs.foldl
    (fun links href =>
      let link := if href.startsWith "/" then uadd base_url href else href
      if link.startsWith "http" then
        if link ∈ links then links else links ++ [link]
      else links)
    []

/-- Shared crawler state: the `asyncio.Queue` frontier of (url, depth)
pairs (FIFO: got from the head, put at the tail), the `visited_urls` set
(duplicate-free by the membership guard), and the `results` dict. -/
structure CrawlState where
  url_queue : List (String × Nat)
  visited_urls : List String
  results : List (String × List String)

/-- `AsyncWebCrawler.__init__` (lines 174–181): the frontier seeded with
`(start_url, 0)`, everything else empty. -/
def initCrawl (start_url : String) : CrawlState :=
  ⟨[(start_url, 0)], [], []⟩

/-- One iteration of the `while` loop of `AsyncWebCrawler.crawl`
(lines 194–212), the unit a worker executes atomically up to its fetch
(cooperative scheduling: `queue.get` on a non-empty queue does not yield).
`pages url = some hrefs` abstracts a fetch whose content is truthy with
extractable hrefs; `none` is falsy content.  When the loop guard fails
(empty frontier or page bound reached) the state is left unchanged. -/
def crawlStep (pages : String → Option (List String))
    (uadd : String → String → String) (max_pages max_depth : Nat)
    (s : CrawlState) : CrawlState :=
  match s.url_queue with
  | [] => s
  | (current_url, depth) :: rest =>
    if s.visited_urls.length < max_pages then
      if current_url ∈ s.visited_urls ∨ depth > max_depth then
        { s with url_queue := rest }
      else
        let visited := s.visited_urls ++ [current_url]
        match pages current_url with
        | none => { s with url_queue := rest, visited_urls := visited }
        | some hrefs =>
          if depth < max_depth then
            let new_links := parse_links uadd hrefs current_url
            { url_queue := rest ++
                (new_links.filter (fun l => decide (l ∉ visited))).map
                  (fun l => (l, depth + 1)),
              visited_urls := visited,
              results := s.results ++ [(current_url, new_links)] }
          else { s with url_queue := rest, visited_urls := visited }
    else s

end CrawlingCluster

namespace CrawlingCluster

theorem bfsLoop_nil {α : Type} (g : List (Nat × List α)) (acc : List (List α))
    (v : List Nat) : bfsLoop g acc v [] = acc := by
  simp [bfsLoop]

theorem bfsLoop_single_mem {α : Type} (g : List (Nat × List α))
    (acc : List (List α)) (v : List Nat) (s : Nat) (hs : s ∈ v) :
    bfsLoop g acc v [s] =
      if (lookupD g s []).isEmpty then acc else acc ++ [lookupD g s []] := by
  rw [bfsLoop]
  by_cases h : (lookupD g s []).isEmpty
  · simp [h, bfsLoop_nil]
  · simp [h, hs, bfsLoop_nil]

/-- Collapse of `iterative_bfs`: the loop runs exactly one iteration, so the
returned accumulator holds at most the start node's own bundle. -/
theorem iterative_bfs_eq {α : Type} (start_v : Nat)
    (graph : List (Nat × List α)) :
    iterative_bfs start_v graph =
      if (lookupD graph start_v []).isEmpty then []
      else [lookupD graph start_v []] := by
  unfold iterative_bfs
  rw [bfsLoop_single_mem graph [] [start_v] start_v (by simp)]
  by_cases h : (lookupD graph start_v []).isEmpty <;> simp [h]

theorem dfsListF_nil (g : List (Nat × List Nat)) (f : Nat) (disc : List Nat) :
    dfsListF g f [] disc = some disc := by
  rw [dfsListF.eq_def]

theorem dfsListF_cons_mem (g : List (Nat × List Nat)) (f n : Nat)
    (rest disc : List Nat) (hm : n ∈ disc) :
    dfsListF g f (n :: rest) disc = dfsListF g f rest disc := by
  rw [dfsListF.eq_def]
  simp [hm]

theorem dfsListF_cons_zero (g : List (Nat × List Nat)) (n : Nat)
    (rest disc : List Nat) (hm : n ∉ disc) :
    dfsListF g 0 (n :: rest) disc = none := by
  rw [dfsListF.eq_def]
  simp [hm]

theorem dfsListF_cons_succ (g : List (Nat × List Nat)) (f' n : Nat)
    (rest disc : List Nat) (hm : n ∉ disc) :
    dfsListF g (f' + 1) (n :: rest) disc =
      match dfsListF g f' (lookupD g n []) (disc ++ [n]) with
      | none => none
      | some d => dfsListF g (f' + 1) rest d := by
  rw [dfsListF.eq_def]
  simp [hm]

/-- The discovered list only grows: a successful run of the child loop
returns the input list extended at the right. -/
theorem dfs_append (g : List (Nat × List Nat)) :
    ∀ (f : Nat) (l disc d : List Nat),
      dfsListF g f l disc = some d → ∃ t, d = disc ++ t := by
  intro f
  induction f with
  | zero =>
    intro l
    induction l with
    | nil =>
      intro disc d h
      rw [dfsListF_nil] at h
      exact ⟨[], by simpa using h.symm⟩
    | cons n rest ih =>
      intro disc d h
      by_cases hm : n ∈ disc
      · rw [dfsListF_cons_mem g _ _ _ _ hm] at h
        exact ih disc d h
      · rw [dfsListF_cons_zero g _ _ _ hm] at h
        exact absurd h (by simp)
  | succ f' ihf =>
    intro l
    induction l with
    | nil =>
      intro disc d h
      rw [dfsListF_nil] at h
      exact ⟨[], by simpa using h.symm⟩
    | cons n rest ih =>
      intro disc d h
      by_cases hm : n ∈ disc
      · rw [dfsListF_cons_mem g _ _ _ _ hm] at h
        exact ih disc d h
      · rw [dfsListF_cons_succ g _ _ _ _ hm] at h
        cases hin : dfsListF g f' (lookupD g n []) (disc ++ [n]) with
        | none => rw [hin] at h; exact absurd h (by simp)
        | some d1 =>
          rw [hin] at h
          obtain ⟨t1, ht1⟩ := ihf _ _ _ hin
          obtain ⟨t2, ht2⟩ := ih d1 d h
          exact ⟨[n] ++ t1 ++ t2, by simp [ht2, ht1]⟩

/-- The discovered list stays duplicate-free: a node is appended only under
the `n not in discovered` guard. -/
theorem dfs_nodup (g : List (Nat × List Nat)) :
    ∀ (f : Nat) (l disc d : List Nat),
      dfsListF g f l disc = some d → disc.Nodup → d.Nodup := by
  intro f
  induction f with
  | zero =>
    intro l
    induction l with
    | nil =>
      intro disc d h hnd
      rw [dfsListF_nil] at h
      cases h
      exact hnd
    | cons n rest ih =>
      intro disc d h hnd
      by_cases hm : n ∈ disc
      · rw [dfsListF_cons_mem g _ _ _ _ hm] at h
        exact ih disc d h hnd
      · rw [dfsListF_cons_zero g _ _ _ hm] at h
        exact absurd h (by simp)
  | succ f' ihf =>
    intro l
    induction l with
    | nil =>
      intro disc d h hnd
      rw [dfsListF_nil] at h
      cases h
      exact hnd
    | cons n rest ih =>
      intro disc d h hnd
      by_cases hm : n ∈ disc
      · rw [dfsListF_cons_mem g _ _ _ _ hm] at h
        exact ih disc d h hnd
      · rw [dfsListF_cons_succ g _ _ _ _ hm] at h
        cases hin : dfsListF g f' (lookupD g n []) (disc ++ [n]) with
        | none => rw [hin] at h; exact absurd h (by simp)
        | some d1 =>
          rw [hin] at h
          have hnd' : (disc ++ [n]).Nodup := by
            simp [List.nodup_append, hnd, hm]
          exact ih d1 d h (ihf _ _ _ hin hnd')

/-- Soundness: anything on the returned discovered list was already
discovered, or is reachable from one of the children still to process. -/
theorem dfs_sound (g : List (Nat × List Nat)) :
    ∀ (f : Nat) (l disc d : List Nat), dfsListF g f l disc = some d →
      ∀ x ∈ d, x ∈ disc ∨ ∃ n ∈ l, reachGraph g n x := by
  intro f
  induction f with
  | zero =>
    intro l
    induction l with
    | nil =>
      intro disc d h x hx
      rw [dfsListF_nil] at h
      cases h
      exact Or.inl hx
    | cons n rest ih =>
      intro disc d h x hx
      by_cases hm : n ∈ disc
      · rw [dfsListF_cons_mem g _ _ _ _ hm] at h
        rcases ih disc d h x hx with h1 | ⟨m, hmr, hr⟩
        · exact Or.inl h1
        · exact Or.inr ⟨m, List.mem_cons_of_mem _ hmr, hr⟩
      · rw [dfsListF_cons_zero g _ _ _ hm] at h
        exact absurd h (by simp)
  | succ f' ihf =>
    intro l
    induction l with
    | nil =>
      intro disc d h x hx
      rw [dfsListF_nil] at h
      cases h
      exact Or.inl hx
    | cons n rest ih =>
      intro disc d h x hx
      by_cases hm : n ∈ disc
      · rw [dfsListF_cons_mem g _ _ _ _ hm] at h
        rcases ih disc d h x hx with h1 | ⟨m, hmr, hr⟩
        · exact Or.inl h1
        · exact Or.inr ⟨m, List.mem_cons_of_mem _ hmr, hr⟩
      · rw [dfsListF_cons_succ g _ _ _ _ hm] at h
        cases hin : dfsListF g f' (lookupD g n []) (disc ++ [n]) with
        | none => rw [hin] at h; exact absurd h (by simp)
        | some d1 =>
          rw [hin] at h
          rcases ih d1 d h x hx with h1 | ⟨m, hmr, hr⟩
          · rcases ihf _ _ _ hin x h1 with h2 | ⟨m, hmc, hr⟩
            · rcases List.mem_append.mp h2 with h3 | h3
              · exact Or.inl h3
              · refine Or.inr ⟨n, List.mem_cons_self n rest, ?_⟩
                have : x = n := by simpa using h3
                exact this ▸ Relation.ReflTransGen.refl
            · exact Or.inr ⟨n, List.mem_cons_self n rest,
                Relation.ReflTransGen.head hmc hr⟩
          · exact Or.inr ⟨m, List.mem_cons_of_mem _ hmr, hr⟩

/-- Completeness core: after a successful child loop, every pending child is
discovered, and every node discovered during the loop has all its own
children discovered. -/
theorem dfs_closure (g : List (Nat × List Nat)) :
    ∀ (f : Nat) (l disc d : List Nat), dfsListF g f l disc = some d →
      (∀ n ∈ l, n ∈ d) ∧
        ∀ x ∈ d, x ∉ disc → ∀ y ∈ lookupD g x [], y ∈ d := by
  intro f
  induction f with
  | zero =>
    intro l
    induction l with
    | nil =>
      intro disc d h
      rw [dfsListF_nil] at h
      cases h
      exact ⟨by simp, fun x hx hnx => absurd hx (by simpa using hnx)⟩
    | cons n rest ih =>
      intro disc d h
      by_cases hm : n ∈ disc
      · rw [dfsListF_cons_mem g _ _ _ _ hm] at h
        obtain ⟨h1, h2⟩ := ih disc d h
        obtain ⟨t, rfl⟩ := dfs_append g _ _ _ _ h
        refine ⟨fun m hmr => ?_, h2⟩
        rcases List.mem_cons.mp hmr with rfl | hmr
        · exact List.mem_append_left _ hm
        · exact h1 m hmr
      · rw [dfsListF_cons_zero g _ _ _ hm] at h
        exact absurd h (by simp)
  | succ f' ihf =>
    intro l
    induction l with
    | nil =>
      intro disc d h
      rw [dfsListF_nil] at h
      cases h
      exact ⟨by simp, fun x hx hnx => absurd hx (by simpa using hnx)⟩
    | cons n rest ih =>
      intro disc d h
      by_cases hm : n ∈ disc
      · rw [dfsListF_cons_mem g _ _ _ _ hm] at h
        obtain ⟨h1, h2⟩ := ih disc d h
        obtain ⟨t, rfl⟩ := dfs_append g _ _ _ _ h
        refine ⟨fun m hmr => ?_, h2⟩
        rcases List.mem_cons.mp hmr with rfl | hmr
        · exact List.mem_append_left _ hm
        · exact h1 m hmr
      · rw [dfsListF_cons_succ g _ _ _ _ hm] at h
        cases hin : dfsListF g f' (lookupD g n []) (disc ++ [n]) with
        | none => rw [hin] at h; exact absurd h (by simp)
        | some d1 =>
          rw [hin] at h
          obtain ⟨hin1, hin2⟩ := ihf _ _ _ hin
          obtain ⟨hout1, hout2⟩ := ih d1 d h
          obtain ⟨t1, ht1⟩ := dfs_append g _ _ _ _ hin
          obtain ⟨t2, ht2⟩ := dfs_append g _ _ _ _ h
          have hsub1 : disc ++ [n] ⊆ d1 := ht1 ▸ List.subset_append_left _ _
          have hsub2 : d1 ⊆ d := ht2 ▸ List.subset_append_left _ _
          constructor
          · intro m hmr
            rcases List.mem_cons.mp hmr with rfl | hmr
            · exact hsub2 (hsub1 (by simp))
            · exact hout1 m hmr
          · intro x hx hxd y hy
            by_cases hx1 : x ∈ d1
            · by_cases hxn : x = n
              · subst hxn
                exact hsub2 (hin1 y hy)
              · have : x ∉ disc ++ [n] := by
                  simp only [List.mem_append, List.mem_singleton]
                  rintro (h | h)
                  · exact hxd h
                  · exact hxn h
                exact hsub2 (hin2 x hx1 this y hy)
            · exact hout2 x hx hx1 y hy

theorem lookupD_subset_nodesOf (g : List (Nat × List Nat)) (n : Nat) :
    lookupD g n [] ⊆ nodesOf g := by
  induction g with
  | nil => simp [lookupD]
  | cons p rest ih =>
    obtain ⟨k, v⟩ := p
    intro x hx
    have hx' : x ∈ v ∨ x ∈ lookupD rest n [] := by
      by_cases hk : k = n
      · simp only [lookupD, hk, if_true] at hx
        exact Or.inl hx
      · simp only [lookupD, hk, if_false] at hx
        exact Or.inr hx
    rcases hx' with h | h
    · simp only [nodesOf, List.map_cons, List.mem_append, List.mem_cons,
        List.flatten_cons]
      tauto
    · have := ih h
      simp only [nodesOf, List.mem_append] at this
      simp only [nodesOf, List.map_cons, List.mem_append, List.mem_cons,
        List.flatten_cons]
      tauto

theorem remaining_mono (g : List (Nat × List Nat)) {disc disc' : List Nat}
    (h : disc ⊆ disc') : remaining g disc' ≤ remaining g disc := by
  apply Finset.card_le_card
  intro x hx
  simp only [Finset.mem_filter] at hx ⊢
  exact ⟨hx.1, fun hmem => hx.2 (h hmem)⟩

theorem remaining_lt (g : List (Nat × List Nat)) {disc : List Nat} {n : Nat}
    (hn : n ∈ nodesOf g) (hnd : n ∉ disc) :
    remaining g (disc ++ [n]) < remaining g disc := by
  apply Finset.card_lt_card
  rw [Finset.ssubset_iff_of_subset]
  · refine ⟨n, ?_, ?_⟩
    · simp only [Finset.mem_filter, List.mem_toFinset]
      exact ⟨hn, hnd⟩
    · simp
  · intro x hx
    simp only [Finset.mem_filter, List.mem_append, List.mem_singleton] at hx ⊢
    exact ⟨hx.1, fun hmem => hx.2 (Or.inl hmem)⟩

/-- Fuel sufficiency: with fuel at least the number of not-yet-discovered
graph nodes, the child loop never exhausts its fuel. -/
theorem dfs_fuel_sufficient (g : List (Nat × List Nat)) :
    ∀ (f : Nat) (l disc : List Nat), (∀ n ∈ l, n ∈ nodesOf g) →
      remaining g disc ≤ f → (dfsListF g f l disc).isSome = true := by
  intro f
  induction f with
  | zero =>
    intro l
    induction l with
    | nil =>
      intro disc _ _
      rw [dfsListF_nil]
      rfl
    | cons n rest ih =>
      intro disc hl hr
      by_cases hm : n ∈ disc
      · rw [dfsListF_cons_mem g _ _ _ _ hm]
        exact ih disc (fun m hmr => hl m (List.mem_cons_of_mem _ hmr)) hr
      · exfalso
        have hn : n ∈ nodesOf g := hl n (List.mem_cons_self n rest)
        have hmem : n ∈ (nodesOf g).toFinset.filter (fun x => x ∉ disc) := by
          simp only [Finset.mem_filter, List.mem_toFinset]
          exact ⟨hn, hm⟩
        have : 0 < remaining g disc := by
          unfold remaining
          exact Finset.card_pos.mpr ⟨n, hmem⟩
        omega
  | succ f' ihf =>
    intro l
    induction l with
    | nil =>
      intro disc _ _
      rw [dfsListF_nil]
      rfl
    | cons n rest ih =>
      intro disc hl hr
      by_cases hm : n ∈ disc
      · rw [dfsListF_cons_mem g _ _ _ _ hm]
        exact ih disc (fun m hmr => hl m (List.mem_cons_of_mem _ hmr)) hr
      · rw [dfsListF_cons_succ g _ _ _ _ hm]
        have hn : n ∈ nodesOf g := hl n (List.mem_cons_self n rest)
        have hr1 : remaining g (disc ++ [n]) ≤ f' := by
          have := remaining_lt g hn hm
          omega
        have hin := ihf (lookupD g n []) (disc ++ [n])
          (fun m hmr => lookupD_subset_nodesOf g n hmr) hr1
        cases hd1 : dfsListF g f' (lookupD g n []) (disc ++ [n]) with
        | none => rw [hd1] at hin; exact absurd hin (by simp)
        | some d1 =>
          obtain ⟨t1, ht1⟩ := dfs_append g _ _ _ _ hd1
          have hsub : disc ⊆ d1 := by
            rw [ht1]
            intro x hx
            exact List.mem_append_left _ (List.mem_append_left _ hx)
          have hr2 : remaining g d1 ≤ f' + 1 :=
            le_trans (remaining_mono g hsub) hr
          exact ih d1 (fun m hmr => hl m (List.mem_cons_of_mem _ hmr)) hr2

/-- `recursive_dfs` terminates for every graph: the fuel chosen by
`recursive_dfsO` always suffices. -/
theorem recursive_dfsO_isSome (node : Nat) (g : List (Nat × List Nat)) :
    (recursive_dfsO node g).isSome = true := by
  unfold recursive_dfsO
  apply dfs_fuel_sufficient
  · exact fun m hm => lookupD_subset_nodesOf g node hm
  · have : remaining g [node] ≤ (nodesOf g).toFinset.card := by
      unfold remaining
      exact Finset.card_le_card (Finset.filter_subset _ _)
    omega

/-- Full characterization of `recursive_dfs node g`: it succeeds, starts at
the start node, is duplicate-free, and contains exactly the nodes reachable
from the start node. -/
theorem recursive_dfs_spec (node : Nat) (g : List (Nat × List Nat)) :
    (∀ x, x ∈ recursive_dfs node g ↔ reachGraph g node x) ∧
      (recursive_dfs node g).Nodup ∧
      ∃ t, recursive_dfs node g = node :: t := by
  obtain ⟨d, hd⟩ := Option.isSome_iff_exists.mp (recursive_dfsO_isSome node g)
  have hdfs : dfsListF g ((nodesOf g).toFinset.card + 1) (lookupD g node [])
      [node] = some d := hd
  have heq : recursive_dfs node g = d := by
    unfold recursive_dfs
    rw [show recursive_dfsO node g = some d from hd]
    rfl
  obtain ⟨t, ht⟩ := dfs_append g _ _ _ _ hdfs
  obtain ⟨hcl1, hcl2⟩ := dfs_closure g _ _ _ _ hdfs
  have hnode_mem : node ∈ d := ht ▸ List.mem_append_left _ (by simp)
  refine ⟨fun x => ⟨fun hx => ?_, fun hx => ?_⟩,
    heq ▸ dfs_nodup g _ _ _ _ hdfs (by simp), ⟨t, by simpa [heq] using ht⟩⟩
  · rw [heq] at hx
    rcases dfs_sound g _ _ _ _ hdfs x hx with h1 | ⟨n, hn, hr⟩
    · have : x = node := by simpa using h1
      exact this ▸ Relation.ReflTransGen.refl
    · exact Relation.ReflTransGen.head hn hr
  · rw [heq]
    clear heq ht
    induction hx with
    | refl => exact hnode_mem
    | @tail b c _hab hbc ih =>
      by_cases hb : b = node
      · exact hcl1 c (hb ▸ hbc)
      · exact hcl2 b ih (by simpa using hb) c hbc

/-- Closed form of `url_classifier`: the queues after a call are the input
queues extended, in input order, with exactly the string items and exactly
the dict items; items of any other shape extend neither queue. -/
theorem url_classifier_eq (result : List PyVal) :
    ∀ qs : List String × List (List (String × Nat)),
      url_classifier qs result =
        (qs.1 ++ result.filterMap readyOf,
          qs.2 ++ result.filterMap notReadyOf) := by
  induction result with
  | nil => intro qs; simp [url_classifier, readyOf, notReadyOf]
  | cons x xs ih =>
    intro qs
    have hstep : url_classifier qs (x :: xs) =
        url_classifier
          (match x with
            | .str s => (qs.1 ++ [s], qs.2)
            | .dict d => (qs.1, qs.2 ++ [d])
            | _ => qs) xs := by
      rfl
    rw [hstep]
    cases x with
    | str s => rw [ih]; simp [readyOf, notReadyOf, List.filterMap_cons]
    | dict d => rw [ih]; simp [readyOf, notReadyOf, List.filterMap_cons]
    | int n => rw [ih]; simp [readyOf, notReadyOf, List.filterMap_cons]
    | exc e => rw [ih]; simp [readyOf, notReadyOf, List.filterMap_cons]

theorem chunks_nil (bs : Nat) : chunks bs [] = [] := by
  rw [chunks.eq_def]

theorem chunks_cons (bs : Nat) (a : String) (l : List String) :
    chunks bs (a :: l) =
      (a :: l).take (bs + 1) :: chunks bs ((a :: l).drop (bs + 1)) := by
  rw [chunks.eq_def]

theorem range'_map_shift {β : Type} (t : Nat) (g : Nat → β) :
    ∀ (n s : Nat),
      (List.range' (s + t) n t).map g =
        (List.range' s n t).map (fun c => g (c + t)) := by
  intro n
  induction n with
  | zero => intro s; simp
  | succ n ih =>
    intro s
    rw [List.range'_succ, List.range'_succ, List.map_cons, List.map_cons,
      ih (s + t)]

theorem batches_eq_chunks (bs : Nat) (node : List String) :
    batches node (bs + 1) = chunks bs node := by
  induction node using chunks.induct bs with
  | case1 =>
    rw [chunks_nil]
    unfold batches
    have h1 : ([] : List String).length + (bs + 1) - 1 = bs := by simp
    rw [h1, Nat.div_eq_of_lt (Nat.lt_succ_self bs)]
    simp
  | case2 hd tl ih =>
    rw [chunks_cons, ← ih]
    unfold batches
    have hpos : 0 < bs + 1 := Nat.succ_pos bs
    have hcount : ((hd :: tl).length + (bs + 1) - 1) / (bs + 1)
        = tl.length / (bs + 1) + 1 := by
      have h1 : (hd :: tl).length + (bs + 1) - 1 = tl.length + (bs + 1) := by
        simp only [List.length_cons]
        omega
      rw [h1, Nat.add_div_right _ hpos]
    have hk : ((List.drop (bs + 1) (hd :: tl)).length + (bs + 1) - 1) / (bs + 1)
        = tl.length / (bs + 1) := by
      simp only [List.length_drop, List.length_cons]
      rcases Nat.lt_or_ge (tl.length + 1) (bs + 1) with h | h
      · have h2 : tl.length + 1 - (bs + 1) + (bs + 1) - 1 = bs := by omega
        rw [h2, Nat.div_eq_of_lt (Nat.lt_succ_self bs),
          Nat.div_eq_of_lt (by omega)]
      · have h2 : tl.length + 1 - (bs + 1) + (bs + 1) - 1 = tl.length := by
          omega
        rw [h2]
    rw [hcount, hk, List.range'_succ, List.map_cons]
    have hshift := range'_map_shift (bs + 1)
      (fun count => (List.drop count (hd :: tl)).take (bs + 1))
      (tl.length / (bs + 1)) 0
    simp only [Nat.zero_add] at hshift
    congr 1
    simp only [Nat.zero_add]
    refine hshift.trans (List.map_congr_left ?_)
    intro c _
    show List.take (bs + 1) (List.drop (c + (bs + 1)) (hd :: tl)) =
      List.take (bs + 1) (List.drop c (List.drop (bs + 1) (hd :: tl)))
    rw [List.drop_drop, Nat.add_comm (bs + 1) c]

theorem chunks_flatten (bs : Nat) (node : List String) :
    (chunks bs node).flatten = node := by
  induction node using chunks.induct bs with
  | case1 => rw [chunks_nil]; rfl
  | case2 hd tl ih =>
    rw [chunks_cons, List.flatten_cons, ih, List.take_append_drop]

theorem chunks_eq_nil_iff (bs : Nat) (node : List String) :
    chunks bs node = [] ↔ node = [] := by
  cases node with
  | nil => simp [chunks_nil]
  | cons a l => simp [chunks_cons]

theorem chunks_length_le (bs : Nat) (node : List String) :
    (chunks bs node).all (fun b => decide (b.length ≤ bs + 1)) = true := by
  induction node using chunks.induct bs with
  | case1 => rw [chunks_nil]; rfl
  | case2 hd tl ih =>
    rw [chunks_cons, List.all_cons, ih, Bool.and_true]
    simp [List.length_take]

theorem chunks_dropLast_full (bs : Nat) (node : List String) :
    ((chunks bs node).dropLast.all (fun b => decide (b.length = bs + 1)))
      = true := by
  induction node using chunks.induct bs with
  | case1 => rw [chunks_nil]; rfl
  | case2 hd tl ih =>
    rw [chunks_cons]
    cases hrest : chunks bs (List.drop (bs + 1) (hd :: tl)) with
    | nil => rfl
    | cons c cs =>
      rw [hrest] at ih
      have hne : List.drop (bs + 1) (hd :: tl) ≠ [] := by
        intro hcon
        rw [hcon, chunks_nil] at hrest
        exact List.noConfusion hrest
      have hlen : (bs + 1) < (hd :: tl).length := by
        by_contra hcon
        exact hne (List.drop_eq_nil_of_le (by omega))
      have htake : ((hd :: tl).take (bs + 1)).length = bs + 1 := by
        rw [List.length_take]
        omega
      show (((hd :: tl).take (bs + 1)) :: (c :: cs).dropLast).all
        (fun b => decide (b.length = bs + 1)) = true
      rw [List.all_cons, ih, Bool.and_true, htake]
      simp

theorem dispatchBatches_nil (bs : Nat) : dispatchBatches [] bs = [] := by
  rw [dispatchBatches.eq_def]

theorem dispatchBatches_concat (l : List (List String)) (a : List String)
    (bs : Nat) :
    dispatchBatches (l ++ [a]) bs =
      (if 0 < a.length then batches a bs else []) ++ dispatchBatches l bs := by
  rw [dispatchBatches.eq_def]
  cases hl : l ++ [a] with
  | nil => exact absurd hl (by simp)
  | cons x xs =>
    have h1 : (x :: xs).getLast?.getD [] = a := by
      rw [← hl]
      simp
    have h2 : (x :: xs).dropLast = l := by
      rw [← hl]
      simp
    simp only [h1, h2]

/-- The dispatch loop pops bundles in stack order: the trace of batches is
the concatenation, over the reversed starting queue, of each non-empty
bundle's batches. -/
theorem dispatchBatches_eq (bs : Nat) (start : List (List String)) :
    dispatchBatches start bs =
      ((start.reverse.filter (fun n => decide (0 < n.length))).map
        (fun n => batches n bs)).flatten := by
  induction start using List.reverseRecOn with
  | nil => rw [dispatchBatches_nil]; rfl
  | append_singleton l a ih =>
    rw [dispatchBatches_concat, ih, List.reverse_append]
    by_cases ha : 0 < a.length
    · simp [ha]
    · simp [ha]

theorem foldl_preserves_all {β : Type} (p : String → Bool)
    (f : List String → β → List String)
    (hf : ∀ acc x, acc.all p = true → (f acc x).all p = true) :
    ∀ (l : List β) (acc : List String),
      acc.all p = true → (l.foldl f acc).all p = true := by
  intro l
  induction l with
  | nil => intro acc h; exact h
  | cons x xs ih => intro acc h; exact ih (f acc x) (hf acc x h)

/-- Every link `parse_links` keeps starts with `"http"` — the second
`startswith` check guards every insertion. -/
theorem parse_links_http (uadd : String → String → String)
    (hrefs : List String) (base_url : String) :
    (parse_links uadd hrefs base_url).all
      (fun l => l.startsWith "http") = true := by
  unfold parse_links
  refine foldl_preserves_all _ _ ?_ hrefs [] rfl
  intro acc href hacc
  simp only
  by_cases h1 : (if href.startsWith "/" then uadd base_url href
      else href).startsWith "http"
  · rw [if_pos h1]
    by_cases h2 : (if href.startsWith "/" then uadd base_url href
        else href) ∈ acc
    · rw [if_pos h2]
      exact hacc
    · rw [if_neg h2]
      rw [List.all_append, hacc, Bool.true_and, List.all_cons, h1]
      rfl
  · rw [if_neg h1]
    exact hacc

/-- One crawl step never pushes the visited set beyond the page bound: an
insertion happens only under the `len(visited) < max_pages` loop guard. -/
theorem crawlStep_visited_le (pages : String → Option (List String))
    (uadd : String → String → String) (mp md : Nat) (s : CrawlState)
    (h : s.visited_urls.length ≤ mp) :
    (crawlStep pages uadd mp md s).visited_urls.length ≤ mp := by
  obtain ⟨q, v, r⟩ := s
  cases q with
  | nil => exact h
  | cons p rest =>
    obtain ⟨current_url, depth⟩ := p
    replace h : v.length ≤ mp := h
    dsimp only [crawlStep]
    by_cases hlt : v.length < mp
    · rw [if_pos hlt]
      by_cases hg : current_url ∈ v ∨ depth > md
      · rw [if_pos hg]
        exact h
      · rw [if_neg hg]
        cases hp : pages current_url with
        | none =>
          simp only [List.length_append, List.length_cons, List.length_nil]
          omega
        | some hrefs =>
          dsimp only
          by_cases hdep : depth < md
          · rw [if_pos hdep]
            simp only [List.length_append, List.length_cons, List.length_nil]
            omega
          · rw [if_neg hdep]
            simp only [List.length_append, List.length_cons, List.length_nil]
            omega
    · rw [if_neg hlt]
      exact h

/-- One crawl step enqueues only entries with depth at most the depth
bound: new entries carry `depth + 1` and are enqueued only when
`depth < max_depth`. -/
theorem crawlStep_depths_le (pages : String → Option (List String))
    (uadd : String → String → String) (mp md : Nat) (s : CrawlState)
    (h : s.url_queue.all (fun p => decide (p.2 ≤ md)) = true) :
    (crawlStep pages uadd mp md s).url_queue.all
      (fun p => decide (p.2 ≤ md)) = true := by
  obtain ⟨q, v, r⟩ := s
  cases q with
  | nil => exact h
  | cons p rest =>
    obtain ⟨current_url, depth⟩ := p
    replace h : ((current_url, depth) :: rest).all
      (fun p => decide (p.2 ≤ md)) = true := h
    rw [List.all_cons] at h
    obtain ⟨hdep0, hrest⟩ := Bool.and_eq_true_iff.mp h
    dsimp only [crawlStep]
    by_cases hlt : v.length < mp
    · rw [if_pos hlt]
      by_cases hg : current_url ∈ v ∨ depth > md
      · rw [if_pos hg]
        exact hrest
      · rw [if_neg hg]
        cases hp : pages current_url with
        | none => exact hrest
        | some hrefs =>
          dsimp only
          by_cases hdep : depth < md
          · rw [if_pos hdep]
            show (rest ++ _).all _ = true
            rw [List.all_append, hrest, Bool.true_and, List.all_eq_true]
            intro x hx
            rw [List.mem_map] at hx
            obtain ⟨l, _, rfl⟩ := hx
            simp only [decide_eq_true_eq]
            omega
          · rw [if_neg hdep]
            exact hrest
    · rw [if_neg hlt]
      exact h

/-- One crawl step records only all-http link lists in the result map: the
recorded value is a `parse_links` output. -/
theorem crawlStep_results_http (pages : String → Option (List String))
    (uadd : String → String → String) (mp md : Nat) (s : CrawlState)
    (h : s.results.all (fun p => p.2.all (fun l => l.startsWith "http"))
      = true) :
    (crawlStep pages uadd mp md s).results.all
      (fun p => p.2.all (fun l => l.startsWith "http")) = true := by
  obtain ⟨q, v, r⟩ := s
  cases q with
  | nil => exact h
  | cons p rest =>
    obtain ⟨current_url, depth⟩ := p
    replace h : r.all (fun p => p.2.all (fun l => l.startsWith "http"))
      = true := h
    dsimp only [crawlStep]
    by_cases hlt : v.length < mp
    · rw [if_pos hlt]
      by_cases hg : current_url ∈ v ∨ depth > md
      · rw [if_pos hg]
        exact h
      · rw [if_neg hg]
        cases hp : pages current_url with
        | none => exact h
        | some hrefs =>
          dsimp only
          by_cases hdep : depth < md
          · rw [if_pos hdep]
            show (r ++ [(current_url, parse_links uadd hrefs current_url)]).all
              _ = true
            rw [List.all_append, h, Bool.true_and, List.all_cons]
            have := parse_links_http uadd hrefs current_url
            simp only [this]
            rfl
          · rw [if_neg hdep]
            exact h
    · rw [if_neg hlt]
      exact h

theorem filterMap_eq_nil_of_none {α β : Type} (g : α → Option β)
    (hg : ∀ x, g x = none) (l : List α) : l.filterMap g = [] := by
  induction l with
  | nil => rfl
  | cons a l ih => rw [List.filterMap_cons, hg a, ih]

/-- Action of `parse_links` on a single href: resolve a `"/"`-link against
the base URL, keep the result only when it starts with `"http"`. -/
theorem parse_links_single (uadd : String → String → String)
    (base href : String) :
    parse_links uadd [href] base =
      (if (if href.startsWith "/" then uadd base href
            else href).startsWith "http"
        then [if href.startsWith "/" then uadd base href else href]
        else []) := by
  unfold parse_links
  rw [List.foldl_cons, List.foldl_nil]
  dsimp only
  by_cases h : (if href.startsWith "/" then uadd base href
      else href).startsWith "http"
  · rw [if_pos h, if_pos h, if_neg (List.not_mem_nil _)]
    rfl
  · rw [if_neg h, if_neg h]

/-! ## Claim theorems -/

/-- Claim C1 counterexample: on the graph `[(1, [2]), (2, [3])]` node 2 is
reachable from node 1 and holds the non-empty payload `[3]`, yet
`iterative_bfs 1` accumulates only the start node's own bundle `[2]` —
`[3]` is never appended to the accumulator, and the bundle the
`deep_dive_search` pop returns is `[2]`, not the last reachable node's
bundle `[3]`.  The claimed breadth-first exploration of all reachable
nodes does not happen. -/
theorem C1_counterexample :
    reachGraph bfsDemoGraph 1 2 ∧
      lookupD bfsDemoGraph 2 [] = [3] ∧
      iterative_bfs 1 bfsDemoGraph = [[2]] ∧
      [3] ∉ iterative_bfs 1 bfsDemoGraph ∧
      breadthFirstBundle 1 bfsDemoGraph = some [2] := by
  refine ⟨?_, rfl, ?_, ?_, ?_⟩
  · exact Relation.ReflTransGen.single
      (show (2 : Nat) ∈ lookupD bfsDemoGraph 1 [] by decide)
  · rw [iterative_bfs_eq]
    decide
  · rw [iterative_bfs_eq]
    decide
  · unfold breadthFirstBundle
    rw [iterative_bfs_eq]
    decide

/-- Claim C1 (amended): `iterative_bfs` never explores beyond the start
node.  Its accumulator is exactly `[graph[start]]` when the start node's
payload bundle is non-empty and empty otherwise, so the bundle
`deep_dive_search` pops is the start node's own bundle (or an `IndexError`
when the start node has none); payload bundles of other reachable nodes
are never accumulated. -/
theorem C1_theorem {α : Type} (start_v : Nat) (graph : List (Nat × List α)) :
    iterative_bfs start_v graph =
      (if (lookupD graph start_v []).isEmpty then []
        else [lookupD graph start_v []]) ∧
      breadthFirstBundle start_v graph =
        (if (lookupD graph start_v []).isEmpty then none
          else some (lookupD graph start_v [])) := by
  constructor
  · exact iterative_bfs_eq start_v graph
  · unfold breadthFirstBundle
    rw [iterative_bfs_eq]
    by_cases h : (lookupD graph start_v []).isEmpty
    · rw [if_pos h, if_pos h]
      rfl
    · rw [if_neg h, if_neg h]
      rfl

/-- Claim C2: in every state reachable by worker steps from the initial
crawl state, the visited-URL set never grows beyond `max_pages`, whatever
the frontier holds — each insertion is guarded by the
`len(visited_urls) < max_pages` loop condition. -/
theorem C2_theorem (pages : String → Option (List String))
    (uadd : String → String → String) (start_url : String)
    (max_pages max_depth n : Nat) :
    (((crawlStep pages uadd max_pages max_depth)^[n])
      (initCrawl start_url)).visited_urls.length ≤ max_pages := by
  induction n with
  | zero => exact Nat.zero_le _
  | succ n ih =>
    rw [Function.iterate_succ_apply']
    exact crawlStep_visited_le pages uadd max_pages max_depth _ ih

/-- Claim C3: in every state reachable from the initial crawl state (seed
enqueued at depth 0), every frontier entry has depth at most `max_depth`:
links are enqueued at `depth + 1` only when `depth < max_depth`. -/
theorem C3_theorem (pages : String → Option (List String))
    (uadd : String → String → String) (start_url : String)
    (max_pages max_depth n : Nat) :
    ((((crawlStep pages uadd max_pages max_depth)^[n])
      (initCrawl start_url)).url_queue.all
        (fun p => decide (p.2 ≤ max_depth))) = true := by
  induction n with
  | zero => simp [initCrawl]
  | succ n ih =>
    rw [Function.iterate_succ_apply']
    exact crawlStep_depths_le pages uadd max_pages max_depth _ ih

/-- Claim C4: `url_classifier` appends exactly the string items to the
ready queue and exactly the dict items to the not-ready queue, preserving
input order; items of any other shape are dropped and extend neither
queue; on the spec's example input the queues are `["http://a"]` and
`[{"status": 404}]`, with `123` in neither. -/
theorem C4_theorem :
    (∀ (ready : List String) (notReady : List (List (String × Nat)))
        (result : List PyVal),
      url_classifier (ready, notReady) result =
        (ready ++ result.filterMap readyOf,
          notReady ++ result.filterMap notReadyOf)) ∧
      url_classifier ([], [])
          [PyVal.str "http://a", PyVal.dict [("status", 404)],
            PyVal.int 123] =
        (["http://a"], [[("status", 404)]]) ∧
      readyOf (PyVal.int 123) = none ∧ notReadyOf (PyVal.int 123) = none := by
  refine ⟨fun r nr res => url_classifier_eq res (r, nr), ?_, rfl, rfl⟩
  rfl

/-- Claim C5 counterexample: with a network raising a timeout,
`async_request_status` returns the raised error itself — the transport
error leaves the function as an uncaught fault (`Except.error`), it is not
converted into any `FetchResult`; the function body has no exception
handler. -/
theorem C5_counterexample :
    async_request_status (fun _ => Except.error NetErr.timeout) "http://a" =
      Except.error NetErr.timeout := rfl

/-- Claim C5 (amended): `async_request_status` classifies HTTP statuses
into returned values (the URL on 200, the `{"status": code}` record
otherwise) but catches no transport error: such an error propagates to the
caller unchanged.  Containment happens one level up, in
`aiorequest_injection`, where `asyncio.gather(..., return_exceptions=True)`
turns each raised exception into a result item — no sibling work is lost —
and `url_classifier` then logs and drops it, so it lands in neither
queue. -/
theorem C5_theorem (url : String) (s : Nat) (e : NetErr)
    (batch : List String) :
    async_request_status (fun _ => Except.ok s) url =
        Except.ok (async_request url s) ∧
      async_request url 200 = FetchResult.success url ∧
      async_request url 404 = FetchResult.failure 404 ∧
      async_request_status (fun _ => Except.error e) url = Except.error e ∧
      (gatherRE (batch.map
          (async_request_status (fun _ => Except.error e)))).length =
        batch.length ∧
      url_classifier ([], [])
          (gatherRE (batch.map
            (async_request_status (fun _ => Except.error e)))) =
        ([], []) := by
  refine ⟨rfl, rfl, rfl, rfl, by simp [gatherRE], ?_⟩
  rw [url_classifier_eq]
  simp only [gatherRE, List.map_map, List.filterMap_map]
  refine congrArg₂ Prod.mk ?_ ?_
  · rw [List.nil_append]
    exact filterMap_eq_nil_of_none _ (fun x => rfl) batch
  · rw [List.nil_append]
    exact filterMap_eq_nil_of_none _ (fun x => rfl) batch

/-- Claim C6: the dispatch loop as written crashes — `ARAH.asnyc_request`
is a nonexistent attribute (the method is `async_request_status`), so any
starting queue holding a non-empty bundle raises `AttributeError` before a
single fetch.  With the intended callee substituted, the loop does pop
bundles in stack order (most recently appended first) and slices each
non-empty bundle into consecutive batches of at most `batch_size` URLs in
original order, only the last batch possibly smaller; a 7-URL bundle with
batch size 3 yields batches of 3, 3, 1. -/
theorem C6_theorem :
    aiorequest_injection [["u1", "u2", "u3", "u4", "u5", "u6", "u7"]] 3 =
        Except.error PyErr.attributeError ∧
      (∀ (start : List (List String)) (bs : Nat),
        dispatchBatches start (bs + 1) =
          ((start.reverse.filter (fun n => decide (0 < n.length))).map
            (fun n => batches n (bs + 1))).flatten) ∧
      (∀ (node : List String) (bs : Nat),
        (batches node (bs + 1)).flatten = node ∧
          (batches node (bs + 1)).all
            (fun b => decide (b.length ≤ bs + 1)) = true ∧
          ((batches node (bs + 1)).dropLast.all
            (fun b => decide (b.length = bs + 1))) = true) ∧
      (batches ["u1", "u2", "u3", "u4", "u5", "u6", "u7"] 3).map
          List.length = [3, 3, 1] := by
  refine ⟨?_, fun start bs => dispatchBatches_eq (bs + 1) start,
    fun node bs => ?_, rfl⟩
  · rw [aiorequest_injection.eq_def]
    rfl
  · rw [batches_eq_chunks]
    exact ⟨chunks_flatten bs node, chunks_length_le bs node,
      chunks_dropLast_full bs node⟩

/-- Claim C7: `recursive_dfs` terminates on every graph, cyclic included —
the fuel bounding the recursion depth is never exhausted — and the
returned ordering is duplicate-free, so each node appears at most once. -/
theorem C7_theorem (graph : List (Nat × List Nat)) (start : Nat) :
    (recursive_dfsO start graph).isSome = true ∧
      (recursive_dfs start graph).Nodup :=
  ⟨recursive_dfsO_isSome start graph, (recursive_dfs_spec start graph).2.1⟩

/-- Claim C8: `recursive_dfs(1, graph)` returns an ordering containing
every node reachable from node 1 exactly once: membership coincides with
reachability, the list is duplicate-free, and it starts with the root —
the discovery order of the recursive descent (preorder). -/
theorem C8_theorem (graph : List (Nat × List Nat)) :
    (∀ x, x ∈ recursive_dfs 1 graph ↔ reachGraph graph 1 x) ∧
      (recursive_dfs 1 graph).Nodup ∧
      ∃ t, recursive_dfs 1 graph = 1 :: t :=
  recursive_dfs_spec 1 graph

/-- Claim C9 counterexample: `url_classifier` appends to module-level
queues, so calling it twice on the same input does not produce the same
queue contents each time — after the second call on `["http://a"]` the
ready queue holds the URL twice. -/
theorem C9_counterexample :
    url_classifier (url_classifier ([], []) [PyVal.str "http://a"])
        [PyVal.str "http://a"] ≠
      url_classifier ([], []) [PyVal.str "http://a"] := by
  decide

/-- Claim C9 (amended): `url_classifier` is deterministic and its
contribution is a pure function of the input list alone — from any prior
queue state it appends exactly the items the same call appends from empty
queues; equal starting states and equal inputs give equal queues.  But
because the queues persist, repeated calls extend them rather than
reproduce them. -/
theorem C9_theorem (qs : List String × List (List (String × Nat)))
    (result : List PyVal) :
    url_classifier qs result =
      (qs.1 ++ (url_classifier ([], []) result).1,
        qs.2 ++ (url_classifier ([], []) result).2) := by
  rw [url_classifier_eq, url_classifier_eq]
  simp

/-- Claim C10: every link `parse_links` returns starts with `"http"` — a
link starting with `"/"` is resolved against the base URL first and kept
only if the resolved form starts with `"http"`, any other non-http link is
discarded — and hence every link list stored in the crawler's result map,
in every reachable crawl state, is all-http. -/
theorem C10_theorem (pages : String → Option (List String))
    (uadd : String → String → String) (start_url base : String)
    (hrefs : List String) (href : String) (max_pages max_depth n : Nat) :
    (parse_links uadd hrefs base).all (fun l => l.startsWith "http")
        = true ∧
      parse_links uadd [href] base =
        (if (if href.startsWith "/" then uadd base href
              else href).startsWith "http"
          then [if href.startsWith "/" then uadd base href else href]
          else []) ∧
      (((crawlStep pages uadd max_pages max_depth)^[n])
        (initCrawl start_url)).results.all
          (fun p => p.2.all (fun l => l.startsWith "http")) = true := by
  refine ⟨parse_links_http uadd hrefs base, parse_links_single uadd base href,
    ?_⟩
  · induction n with
    | zero => rfl
    | succ n ih =>
      rw [Function.iterate_succ_apply']
      exact crawlStep_results_http pages uadd max_pages max_depth _ ih

end CrawlingCluster
